import Mathlib

/-!
Verification of the response-caching and versioning layer of the Atlas
web application (file `src/utils/cacheManager.js`).

JS strings are modelled as lists of UTF-16 code units (`List Nat`), JS
`Map` objects as insertion-ordered association lists, and the current
time (`Date.now()`) as an explicit `now : Nat` parameter.  Fallible
operations (the `btoa` built-in throws on code units above 255) return
`Option`.
-/

namespace Atlas

/-- A JS string, as its list of UTF-16 code units. -/
abbrev JSString := List Nat

/-! ### JS `Map` as an insertion-ordered association list

`Map.prototype.set` overwrites in place when the key exists and appends
at the end otherwise; iteration follows insertion order. -/

def mapGet {K V : Type} [DecidableEq K] : List (K × V) → K → Option V
  | [], _ => none
  | (k', v) :: rest, k => if k' = k then some v else mapGet rest k

def mapSet {K V : Type} [DecidableEq K] : List (K × V) → K → V → List (K × V)
  | [], k, v => [(k, v)]
  | (k', v') :: rest, k, v =>
      if k' = k then (k, v) :: rest else (k', v') :: mapSet rest k v

def mapHas {K V : Type} [DecidableEq K] (m : List (K × V)) (k : K) : Bool :=
  (mapGet m k).isSome

/-! ### The `btoa` built-in

`btoa` base64-encodes a string whose code units are all at most 255 and
throws a `DOMException` otherwise.  Code 61 is the padding `=`, 43 is
the plus sign and 47 the slash. -/

/-- The base64 alphabet: sextet value to character code. -/
def b64char (n : Nat) : Nat :=
  if n < 26 then 65 + n
  else if n < 52 then 97 + (n - 26)
  else if n < 62 then 48 + (n - 52)
  else if n = 62 then 43
  else 47

/-- Base64 of a byte sequence, including `=` padding. -/
def b64encode : List Nat → List Nat
  | [] => []
  | [b1] => [b64char (b1 / 4), b64char (b1 % 4 * 16), 61, 61]
  | [b1, b2] =>
      [b64char (b1 / 4), b64char (b1 % 4 * 16 + b2 / 16), b64char (b2 % 16 * 4), 61]
  | b1 :: b2 :: b3 :: rest =>
      b64char (b1 / 4) :: b64char (b1 % 4 * 16 + b2 / 16) ::
        b64char (b2 % 16 * 4 + b3 / 64) :: b64char (b3 % 64) :: b64encode rest

/-- `btoa`: `none` models the thrown `InvalidCharacterError`. -/
def btoa (s : JSString) : Option JSString :=
  if s.all (fun c => c < 256) then some (b64encode s) else none

/-- The `.replace(/[+\/=]/g, m => ({...})[m])` call in `generateCacheKey`:
plus becomes minus (45), slash becomes underscore (95), `=` is dropped. -/
def replacePlusSlashEq : List Nat → List Nat
  | [] => []
  | c :: rest =>
      (if c = 43 then [45] else if c = 47 then [95] else if c = 61 then [] else [c]) ++
        replacePlusSlashEq rest

/-- `generateCacheKey(prompt, imageAnalysis)`: base64url of
`prompt + "|" + imageAnalysis` (code 124 is the pipe). -/
def generateCacheKey (prompt imageAnalysis : JSString) : Option JSString :=
  (btoa (prompt ++ 124 :: imageAnalysis)).map replacePlusSlashEq

/-! ### Decoder for the fingerprint, used to establish injectivity -/

/-- Inverse of the (replaced) base64 alphabet on its image. -/
def b64inv (c : Nat) : Nat :=
  if 65 ≤ c ∧ c ≤ 90 then c - 65
  else if 97 ≤ c ∧ c ≤ 122 then c - 97 + 26
  else if 48 ≤ c ∧ c ≤ 57 then c - 48 + 52
  else if c = 45 then 62
  else 63

/-- Decode a padded-then-stripped base64url key back to its bytes. -/
def b64decodeKey : List Nat → Option (List Nat)
  | [] => some []
  | [_] => none
  | [c1, c2] => some [b64inv c1 * 4 + b64inv c2 / 16]
  | [c1, c2, c3] =>
      some [b64inv c1 * 4 + b64inv c2 / 16, b64inv c2 % 16 * 16 + b64inv c3 / 4]
  | c1 :: c2 :: c3 :: c4 :: rest =>
      (b64decodeKey rest).map (fun bs =>
        (b64inv c1 * 4 + b64inv c2 / 16) ::
          (b64inv c2 % 16 * 16 + b64inv c3 / 4) ::
          (b64inv c3 % 4 * 64 + b64inv c4) :: bs)

/-- The single-character action of `replacePlusSlashEq` on non-`=` input. -/
def rep1 (c : Nat) : Nat :=
  if c = 43 then 45 else if c = 47 then 95 else c

/-! ### `generateCodeHash`: the 32-bit rolling content hash

`hash = (hash << 5) - hash + char; hash = hash & hash` works on JS 32-bit
signed integers; `hash & hash` coerces the intermediate value back to a
signed 32-bit integer.  The result is `Math.abs(hash).toString(16)`. -/

/-- JS `ToInt32`: wrap an integer into the interval from `-2^31` to `2^31 - 1`. -/
def toInt32 (x : Int) : Int :=
  let r := x % 4294967296
  if r < 2147483648 then r else r - 4294967296

def hashStep (hash : Int) (c : Nat) : Int :=
  toInt32 (toInt32 (hash * 32) - hash + c)

def hexDigit (n : Nat) : Nat :=
  if n < 10 then 48 + n else 87 + n

def toHexAux (fuel n : Nat) (acc : List Nat) : List Nat :=
  match fuel with
  | 0 => acc
  | fuel + 1 =>
      if n < 16 then hexDigit n :: acc
      else toHexAux fuel (n / 16) (hexDigit (n % 16) :: acc)

/-- JS `Number.prototype.toString(16)` on a natural number (lowercase hex). -/
def toHex (n : Nat) : List Nat := toHexAux (n + 1) n []

def generateCodeHash (code : JSString) : JSString :=
  toHex (code.foldl hashStep 0).natAbs

/-! ### The response cache -/

structure GenFile where
  path : JSString
  content : JSString
  language : Option JSString
deriving DecidableEq

structure CacheEntry where
  timestamp : Nat
  code : JSString
  files : List GenFile
  prompt : JSString
  hash : JSString
deriving DecidableEq

abbrev Cache := List (JSString × CacheEntry)

/-- `setCacheEntry(cacheKey, code, files, prompt)`.  The `files` argument may
be absent in JS (`files || []` stores the empty list then); `now` is the
`Date.now()` reading.  Returns the stored entry and the updated cache. -/
def setCacheEntry (cache : Cache) (cacheKey : JSString) (code : JSString)
    (files : Option (List GenFile)) (prompt : JSString) (now : Nat) :
    CacheEntry × Cache :=
  let entry : CacheEntry :=
    { timestamp := now, code := code, files := files.getD [], prompt := prompt,
      hash := generateCodeHash code }
  (entry, mapSet cache cacheKey entry)

def getCacheEntry (cache : Cache) (cacheKey : JSString) : Option CacheEntry :=
  mapGet cache cacheKey

def isCached (cache : Cache) (cacheKey : JSString) : Bool :=
  mapHas cache cacheKey

/-- `clearCache(olderThanMs)`.  The guard `if (!olderThanMs)` is true both
for an absent argument and for the number `0` (JS falsiness), so both clear
the whole cache; otherwise entries with `now - entry.timestamp > olderThanMs`
are deleted while iterating. -/
def clearCache (cache : Cache) (olderThanMs : Option Nat) (now : Nat) : Cache :=
  match olderThanMs with
  | none => []
  | some 0 => []
  | some m =>
      cache.filter (fun p => !(decide ((now : Int) - (p.2.timestamp : Int) > (m : Int))))

/-! ### `generateDiff`: the positional line differencer -/

inductive ChangeType
  | add
  | remove
  | modify
deriving DecidableEq

structure Change where
  lineNumber : Nat
  type : ChangeType
  oldContent : JSString
  newContent : JSString
deriving DecidableEq

/-- The equal-texts branch of `generateDiff` returns an object without the
`changedLinesCount` and `totalLines` properties; `none` models the absent
property. -/
structure DiffResult where
  hasDifferences : Bool
  oldHash : JSString
  newHash : JSString
  changes : List Change
  changedLinesCount : Option Nat
  totalLines : Option Nat
deriving DecidableEq

/-- JS `String.prototype.split` at the newline character (code 10): `n`
separators yield `n + 1` pieces, so the empty string yields one empty piece. -/
def jsSplitNl : List Nat → List (List Nat)
  | [] => [[]]
  | c :: rest =>
      if c = 10 then [] :: jsSplitNl rest
      else
        match jsSplitNl rest with
        | [] => [[c]]
        | l :: ls => (c :: l) :: ls

/-- Body of the `for` loop of `generateDiff`: a missing line reads as the
empty string (`oldLines[i] || ""`), and a change record is pushed when the
two lines at index `i` differ. -/
def diffStep (oldLines newLines : List (List Nat)) (acc : List Change) (i : Nat) :
    List Change :=
  let oldLine := (oldLines[i]?).getD []
  let newLine := (newLines[i]?).getD []
  if oldLine ≠ newLine then
    acc ++ [{ lineNumber := i + 1,
              type := if oldLine = [] then ChangeType.add
                else if newLine = [] then ChangeType.remove else ChangeType.modify,
              oldContent := oldLine, newContent := newLine }]
  else acc

def generateDiff (oldCode newCode : JSString) : DiffResult :=
  if oldCode = newCode then
    { hasDifferences := false, oldHash := generateCodeHash oldCode,
      newHash := generateCodeHash newCode, changes := [],
      changedLinesCount := none, totalLines := none }
  else
    let oldLines := jsSplitNl oldCode
    let newLines := jsSplitNl newCode
    let maxLines := max oldLines.length newLines.length
    let changes := (List.range maxLines).foldl (diffStep oldLines newLines) []
    { hasDifferences := true, oldHash := generateCodeHash oldCode,
      newHash := generateCodeHash newCode, changes := changes,
      changedLinesCount := some changes.length, totalLines := some newLines.length }

/-- Modelled from the spec sentence for claim C7: the single change record
prescribed at index `i`, or `none` when the two lines there agree.  Stated
separately so that claim C7 can compare `generateDiff` against it. -/
def specChangeAt (oldLines newLines : List (List Nat)) (i : Nat) : Option Change :=
  let oldLine := (oldLines[i]?).getD []
  let newLine := (newLines[i]?).getD []
  if oldLine ≠ newLine then
    some { lineNumber := i + 1,
           type := if oldLine = [] then ChangeType.add
             else if newLine = [] then ChangeType.remove else ChangeType.modify,
           oldContent := oldLine, newContent := newLine }
  else none

/-! ### `compareFiles`: the file-set comparator -/

structure AddedFile where
  path : JSString
  content : JSString
  language : Option JSString
deriving DecidableEq

structure ModifiedFile where
  path : JSString
  oldContent : JSString
  newContent : JSString
  diff : DiffResult
deriving DecidableEq

structure RemovedFile where
  path : JSString
  content : JSString
deriving DecidableEq

structure FileCategories where
  added : List AddedFile
  modified : List ModifiedFile
  removed : List RemovedFile
  unchanged : List JSString
deriving DecidableEq

structure CompareSummary where
  addedCount : Nat
  modifiedCount : Nat
  removedCount : Nat
  unchangedCount : Nat
deriving DecidableEq

structure FileComparison where
  hasChanges : Bool
  summary : CompareSummary
  details : FileCategories
deriving DecidableEq

/-- `new Map(files.map(f => [f.path, f]))`: repeated `set`, last path wins. -/
def buildFileMap (files : List GenFile) : List (JSString × GenFile) :=
  files.foldl (fun m f => mapSet m f.path f) []

/-- Body of the first `for...of` loop of `compareFiles` (over the new map). -/
def compareNewStep (oldFileMap : List (JSString × GenFile)) (acc : FileCategories)
    (pf : JSString × GenFile) : FileCategories :=
  match mapGet oldFileMap pf.1 with
  | none =>
      { acc with added := acc.added ++
          [{ path := pf.1, content := pf.2.content, language := pf.2.language }] }
  | some oldFile =>
      if oldFile.content ≠ pf.2.content then
        { acc with modified := acc.modified ++
            [{ path := pf.1, oldContent := oldFile.content, newContent := pf.2.content,
               diff := generateDiff oldFile.content pf.2.content }] }
      else { acc with unchanged := acc.unchanged ++ [pf.1] }

/-- Body of the second `for...of` loop of `compareFiles` (over the old map). -/
def compareOldStep (newFileMap : List (JSString × GenFile)) (acc : FileCategories)
    (pf : JSString × GenFile) : FileCategories :=
  if mapHas newFileMap pf.1 then acc
  else { acc with removed := acc.removed ++ [{ path := pf.1, content := pf.2.content }] }

def compareFiles (oldFiles newFiles : List GenFile) : FileComparison :=
  let oldFileMap := buildFileMap oldFiles
  let newFileMap := buildFileMap newFiles
  let afterNew := newFileMap.foldl (compareNewStep oldFileMap)
    { added := [], modified := [], removed := [], unchanged := [] }
  let comparison := oldFileMap.foldl (compareOldStep newFileMap) afterNew
  { hasChanges := decide (0 < comparison.added.length) ||
      decide (0 < comparison.modified.length) || decide (0 < comparison.removed.length),
    summary := { addedCount := comparison.added.length,
                 modifiedCount := comparison.modified.length,
                 removedCount := comparison.removed.length,
                 unchangedCount := comparison.unchanged.length },
    details := comparison }

/-- The change record prescribed for the new-map pass at one path, for the
membership characterisation of the `added` category. -/
def addedAt (oldFileMap : List (JSString × GenFile)) (pf : JSString × GenFile) :
    Option AddedFile :=
  match mapGet oldFileMap pf.1 with
  | none => some { path := pf.1, content := pf.2.content, language := pf.2.language }
  | some _ => none

def modifiedAt (oldFileMap : List (JSString × GenFile)) (pf : JSString × GenFile) :
    Option ModifiedFile :=
  match mapGet oldFileMap pf.1 with
  | none => none
  | some oldFile =>
      if oldFile.content ≠ pf.2.content then
        some { path := pf.1, oldContent := oldFile.content, newContent := pf.2.content,
               diff := generateDiff oldFile.content pf.2.content }
      else none

def unchangedAt (oldFileMap : List (JSString × GenFile)) (pf : JSString × GenFile) :
    Option JSString :=
  match mapGet oldFileMap pf.1 with
  | none => none
  | some oldFile => if oldFile.content ≠ pf.2.content then none else some pf.1

def removedAt (newFileMap : List (JSString × GenFile)) (pf : JSString × GenFile) :
    Option RemovedFile :=
  if mapHas newFileMap pf.1 then none
  else some { path := pf.1, content := pf.2.content }

/-! ### Session history -/

structure HistoryEntry where
  timestamp : Nat
  code : JSString
  files : List GenFile
  prompt : JSString
deriving DecidableEq

structure SessionHistory where
  entries : List HistoryEntry
  currentIndex : Int
deriving DecidableEq

abbrev Sessions := List (JSString × SessionHistory)

/-- JS `Array.prototype.slice(0, e)` (negative `e` counts from the end). -/
def jsSliceTo {α : Type} (l : List α) (e : Int) : List α :=
  if e < 0 then l.take ((l.length + e).toNat) else l.take e.toNat

/-- `addToHistory(sessionId, code, files, prompt)`: lazily creates the log,
truncates everything after `currentIndex`, appends a snapshot, and points
`currentIndex` at the new last element. -/
def addToHistory (sessions : Sessions) (sessionId : JSString) (code : JSString)
    (files : List GenFile) (prompt : JSString) (now : Nat) : Sessions :=
  let withSession :=
    if mapHas sessions sessionId then sessions
    else mapSet sessions sessionId { entries := [], currentIndex := -1 }
  match mapGet withSession sessionId with
  | none => withSession
  | some history =>
      let kept := jsSliceTo history.entries (history.currentIndex + 1)
      let newEntries := kept ++
        [{ timestamp := now, code := code, files := files, prompt := prompt }]
      mapSet withSession sessionId
        { entries := newEntries, currentIndex := (newEntries.length : Int) - 1 }

/-- `undo(sessionId)`: `null` and no state change when the session is missing
or `currentIndex <= 0`; otherwise decrement and return the entry pointed to. -/
def undo (sessions : Sessions) (sessionId : JSString) :
    Option HistoryEntry × Sessions :=
  match mapGet sessions sessionId with
  | none => (none, sessions)
  | some history =>
      if history.currentIndex ≤ 0 then (none, sessions)
      else
        (history.entries[(history.currentIndex - 1).toNat]?,
         mapSet sessions sessionId { history with currentIndex := history.currentIndex - 1 })

/-- `redo(sessionId)`: `null` and no state change when the session is missing
or `currentIndex >= entries.length - 1`; otherwise increment and return the
entry pointed to. -/
def redo (sessions : Sessions) (sessionId : JSString) :
    Option HistoryEntry × Sessions :=
  match mapGet sessions sessionId with
  | none => (none, sessions)
  | some history =>
      if history.currentIndex ≥ (history.entries.length : Int) - 1 then (none, sessions)
      else
        (history.entries[(history.currentIndex + 1).toNat]?,
         mapSet sessions sessionId { history with currentIndex := history.currentIndex + 1 })

/-- The per-session invariant of claim C4: `currentIndex` is `-1` exactly on
the empty log and addresses a valid position otherwise. -/
def histInv (h : SessionHistory) : Prop :=
  (h.entries = [] ↔ h.currentIndex = -1) ∧
  (h.entries ≠ [] → 0 ≤ h.currentIndex ∧ h.currentIndex < h.entries.length)

def sessionsInv (s : Sessions) : Prop :=
  ∀ sid h, mapGet s sid = some h → histInv h

/-- States of the session-history map reachable from the initial (empty) map
through the three public operations. -/
inductive ReachableSessions : Sessions → Prop
  | empty : ReachableSessions []
  | append (s : Sessions) (sid code : JSString) (files : List GenFile)
      (prompt : JSString) (now : Nat) : ReachableSessions s →
      ReachableSessions (addToHistory s sid code files prompt now)
  | undoStep (s : Sessions) (sid : JSString) : ReachableSessions s →
      ReachableSessions (undo s sid).2
  | redoStep (s : Sessions) (sid : JSString) : ReachableSessions s →
      ReachableSessions (redo s sid).2

/-! ### Sample values used by witnesses and counterexamples -/

def entryAt (t : Nat) : CacheEntry :=
  { timestamp := t, code := [], files := [], prompt := [], hash := [48] }

def sampleFile : GenFile :=
  { path := [105], content := [97], language := none }

def sampleHistEntry : HistoryEntry :=
  { timestamp := 0, code := [99], files := [], prompt := [112] }

def sampleSessions : Sessions :=
  [([115], { entries := [sampleHistEntry], currentIndex := 0 })]

/-! ## Theorems -/

theorem b64char_ne_eq (n : Nat) : b64char n ≠ 61 := by
  unfold b64char
  split_ifs <;> omega

theorem replace_cons_ne_eq (c : Nat) (rest : List Nat) (h : c ≠ 61) :
    replacePlusSlashEq (c :: rest) = rep1 c :: replacePlusSlashEq rest := by
  have hc : replacePlusSlashEq (c :: rest) =
      (if c = 43 then [45] else if c = 47 then [95] else if c = 61 then [] else [c]) ++
        replacePlusSlashEq rest := rfl
  rw [hc, rep1]
  split_ifs <;> simp_all

theorem replace_cons_eq (rest : List Nat) :
    replacePlusSlashEq (61 :: rest) = replacePlusSlashEq rest := rfl

theorem b64inv_rep1_b64char : ∀ n, n < 64 → b64inv (rep1 (b64char n)) = n := by
  decide

theorem b64decodeKey_roundtrip : ∀ s : List Nat, (∀ c ∈ s, c < 256) →
    b64decodeKey (replacePlusSlashEq (b64encode s)) = some s := by
  intro s
  induction s using b64encode.induct with
  | case1 =>
    intro _
    rfl
  | case2 b1 =>
    intro h
    have hb1 : b1 < 256 := h b1 (by simp)
    have e1 : b64encode [b1] = [b64char (b1 / 4), b64char (b1 % 4 * 16), 61, 61] := rfl
    rw [e1, replace_cons_ne_eq _ _ (b64char_ne_eq _), replace_cons_ne_eq _ _ (b64char_ne_eq _),
      replace_cons_eq, replace_cons_eq]
    have d : b64decodeKey [rep1 (b64char (b1 / 4)), rep1 (b64char (b1 % 4 * 16))] =
        some [b64inv (rep1 (b64char (b1 / 4))) * 4 +
          b64inv (rep1 (b64char (b1 % 4 * 16))) / 16] := rfl
    rw [show replacePlusSlashEq [] = [] from rfl, d,
      b64inv_rep1_b64char _ (by omega), b64inv_rep1_b64char _ (by omega)]
    have hb : b1 / 4 * 4 + b1 % 4 * 16 / 16 = b1 := by omega
    rw [hb]
  | case3 b1 b2 =>
    intro h
    have hb1 : b1 < 256 := h b1 (by simp)
    have hb2 : b2 < 256 := h b2 (by simp)
    have e1 : b64encode [b1, b2] = [b64char (b1 / 4), b64char (b1 % 4 * 16 + b2 / 16),
        b64char (b2 % 16 * 4), 61] := rfl
    rw [e1, replace_cons_ne_eq _ _ (b64char_ne_eq _), replace_cons_ne_eq _ _ (b64char_ne_eq _),
      replace_cons_ne_eq _ _ (b64char_ne_eq _), replace_cons_eq]
    have d : b64decodeKey [rep1 (b64char (b1 / 4)), rep1 (b64char (b1 % 4 * 16 + b2 / 16)),
        rep1 (b64char (b2 % 16 * 4))] =
        some [b64inv (rep1 (b64char (b1 / 4))) * 4 +
            b64inv (rep1 (b64char (b1 % 4 * 16 + b2 / 16))) / 16,
          b64inv (rep1 (b64char (b1 % 4 * 16 + b2 / 16))) % 16 * 16 +
            b64inv (rep1 (b64char (b2 % 16 * 4))) / 4] := rfl
    rw [show replacePlusSlashEq [] = [] from rfl, d,
      b64inv_rep1_b64char _ (by omega), b64inv_rep1_b64char _ (by omega),
      b64inv_rep1_b64char _ (by omega)]
    have hx : b1 / 4 * 4 + (b1 % 4 * 16 + b2 / 16) / 16 = b1 := by omega
    have hy : (b1 % 4 * 16 + b2 / 16) % 16 * 16 + b2 % 16 * 4 / 4 = b2 := by omega
    rw [hx, hy]
  | case4 b1 b2 b3 rest ih =>
    intro h
    have hb1 : b1 < 256 := h b1 (by simp)
    have hb2 : b2 < 256 := h b2 (by simp)
    have hb3 : b3 < 256 := h b3 (by simp)
    have hrest : ∀ c ∈ rest, c < 256 := fun c hc => h c (by simp [hc])
    have e1 : b64encode (b1 :: b2 :: b3 :: rest) =
        b64char (b1 / 4) :: b64char (b1 % 4 * 16 + b2 / 16) ::
          b64char (b2 % 16 * 4 + b3 / 64) :: b64char (b3 % 64) :: b64encode rest := rfl
    rw [e1, replace_cons_ne_eq _ _ (b64char_ne_eq _), replace_cons_ne_eq _ _ (b64char_ne_eq _),
      replace_cons_ne_eq _ _ (b64char_ne_eq _), replace_cons_ne_eq _ _ (b64char_ne_eq _)]
    have d : ∀ x1 x2 x3 x4 : Nat, ∀ L : List Nat,
        b64decodeKey (x1 :: x2 :: x3 :: x4 :: L) =
          (b64decodeKey L).map (fun bs =>
            (b64inv x1 * 4 + b64inv x2 / 16) ::
              (b64inv x2 % 16 * 16 + b64inv x3 / 4) ::
              (b64inv x3 % 4 * 64 + b64inv x4) :: bs) := fun _ _ _ _ _ => rfl
    rw [d, ih hrest, Option.map_some',
      b64inv_rep1_b64char _ (by omega), b64inv_rep1_b64char _ (by omega),
      b64inv_rep1_b64char _ (by omega), b64inv_rep1_b64char _ (by omega)]
    have hx : b1 / 4 * 4 + (b1 % 4 * 16 + b2 / 16) / 16 = b1 := by omega
    have hy : (b1 % 4 * 16 + b2 / 16) % 16 * 16 + (b2 % 16 * 4 + b3 / 64) / 4 = b2 := by omega
    have hz : (b2 % 16 * 4 + b3 / 64) % 4 * 64 + b3 % 64 = b3 := by omega
    rw [hx, hy, hz]

/-- If a list with a distinguished separator occurring in neither prefix
splits two ways, the two splits agree. -/
theorem append_sep_inj {c : Nat} : ∀ {xs ys as bs : List Nat}, c ∉ xs → c ∉ ys →
    xs ++ c :: as = ys ++ c :: bs → xs = ys ∧ as = bs := by
  intro xs
  induction xs with
  | nil =>
    intro ys as bs _ hys h
    cases ys with
    | nil => simpa using h
    | cons y ys' =>
      exfalso
      apply hys
      simp only [List.nil_append, List.cons_append, List.cons.injEq] at h
      rw [h.1]
      exact List.mem_cons_self _ _
  | cons x xs' ih =>
    intro ys as bs hxs hys h
    cases ys with
    | nil =>
      exfalso
      apply hxs
      simp only [List.nil_append, List.cons_append, List.cons.injEq] at h
      rw [← h.1]
      exact List.mem_cons_self _ _
    | cons y ys' =>
      simp only [List.cons_append, List.cons.injEq] at h
      have hxs' : c ∉ xs' := fun hm => hxs (List.mem_cons_of_mem _ hm)
      have hys' : c ∉ ys' := fun hm => hys (List.mem_cons_of_mem _ hm)
      obtain ⟨h1, h2⟩ := ih hxs' hys' h.2
      exact ⟨by rw [h.1, h1], h2⟩

theorem generateCacheKey_eq_some {p a k : JSString} (h : generateCacheKey p a = some k) :
    (∀ c ∈ p ++ 124 :: a, c < 256) ∧
      k = replacePlusSlashEq (b64encode (p ++ 124 :: a)) := by
  unfold generateCacheKey btoa at h
  by_cases hc : (p ++ 124 :: a).all (fun c => c < 256)
  · rw [if_pos hc] at h
    simp only [Option.map_some', Option.some.injEq] at h
    refine ⟨?_, h.symm⟩
    intro x hx
    simpa using List.all_eq_true.mp hc x hx
  · rw [if_neg hc] at h
    simp at h

/-- Claim C1 counterexample: the pipe separator of the fingerprint is not
escaped, so the prompt `a|b` with empty auxiliary context and the prompt `a`
with auxiliary context `b|` produce the same key while being distinct pairs. -/
theorem generateCacheKey_collision :
    generateCacheKey [97, 124, 98] [] = generateCacheKey [97] [98, 124] ∧
    ¬([97, 124, 98] = ([97] : JSString) ∧ ([] : JSString) = [98, 124]) := by
  decide

/-- Claim C1 (amended): `generateCacheKey` is deterministic, and it is
injective on pairs whose prompt does not contain the pipe character
(code 124): whenever two such pairs produce the same key, the pairs are
equal.  (Without the pipe-free restriction injectivity fails, as the
counterexample shows.) -/
theorem generateCacheKey_deterministic_injective_pipeFree :
    (∀ p a, generateCacheKey p a = generateCacheKey p a) ∧
    ∀ p1 a1 p2 a2 k, 124 ∉ p1 → 124 ∉ p2 →
      generateCacheKey p1 a1 = some k → generateCacheKey p2 a2 = some k →
      p1 = p2 ∧ a1 = a2 := by
  refine ⟨fun _ _ => rfl, ?_⟩
  intro p1 a1 p2 a2 k hp1 hp2 h1 h2
  obtain ⟨hb1, hk1⟩ := generateCacheKey_eq_some h1
  obtain ⟨hb2, hk2⟩ := generateCacheKey_eq_some h2
  have r1 : b64decodeKey k = some (p1 ++ 124 :: a1) := by
    rw [hk1]; exact b64decodeKey_roundtrip _ hb1
  have r2 : b64decodeKey k = some (p2 ++ 124 :: a2) := by
    rw [hk2]; exact b64decodeKey_roundtrip _ hb2
  have heq : p1 ++ 124 :: a1 = p2 ++ 124 :: a2 := by
    have := r1.symm.trans r2
    simpa using this
  exact append_sep_inj hp1 hp2 heq

theorem generateCacheKey_injective_witness :
    ([97] : JSString) = [97] ∧ ([98] : JSString) = [98] :=
  generateCacheKey_deterministic_injective_pipeFree.2 [97] [98] [97] [98]
    [89, 88, 120, 105] (by decide) (by decide) (by decide) (by decide)

/-- Claim C9 counterexample: a prompt containing a code unit above 255
(here U+4F60) makes the embedded `btoa` call throw, so `generateCacheKey`
is not total on arbitrary strings. -/
theorem generateCacheKey_nonLatin1_throws :
    generateCacheKey [20320] [] = none := by decide

/-- Claim C9 (amended): `generateCacheKey` returns a key without throwing
for every pair of strings all of whose code units are at most 255
(Latin-1); for strings with a code unit above 255 the `btoa` call throws. -/
theorem generateCacheKey_total_latin1 (p a : JSString)
    (hp : ∀ c ∈ p, c < 256) (ha : ∀ c ∈ a, c < 256) :
    ∃ k, generateCacheKey p a = some k := by
  refine ⟨replacePlusSlashEq (b64encode (p ++ 124 :: a)), ?_⟩
  unfold generateCacheKey btoa
  rw [if_pos]
  · rfl
  · rw [List.all_eq_true]
    intro c hc
    simp only [decide_eq_true_eq]
    rcases List.mem_append.mp hc with h | h
    · exact hp c h
    · rcases List.mem_cons.mp h with h | h
      · omega
      · exact ha c h

theorem generateCacheKey_total_latin1_witness :
    ∃ k, generateCacheKey [97] [98] = some k :=
  generateCacheKey_total_latin1 [97] [98] (by decide) (by decide)

/-! ### Map lemmas shared by the cache and history claims -/

theorem mapGet_mapSet_self {K V : Type} [DecidableEq K] (m : List (K × V)) (k : K) (v : V) :
    mapGet (mapSet m k v) k = some v := by
  induction m with
  | nil => simp [mapSet, mapGet]
  | cons p rest ih =>
    by_cases h : p.1 = k
    · simp [mapSet, h, mapGet]
    · simp [mapSet, h, mapGet, ih]

theorem mapGet_mapSet_ne {K V : Type} [DecidableEq K] (m : List (K × V)) (k k' : K) (v : V)
    (h : k ≠ k') : mapGet (mapSet m k v) k' = mapGet m k' := by
  induction m with
  | nil => simp [mapSet, mapGet, h]
  | cons p rest ih =>
    by_cases hp : p.1 = k
    · simp [mapSet, hp, mapGet, h]
    · simp only [mapSet, hp, if_false, mapGet]
      by_cases hp' : p.1 = k'
      · simp [hp']
      · simp [hp', ih]

/-- Claim C2: cache round-trip with replace-on-overwrite. -/
theorem cache_roundtrip_overwrite (cache : Cache) (k code1 code2 prompt1 prompt2 : JSString)
    (files1 files2 : List GenFile) (t1 t2 : Nat) :
    (∃ e, getCacheEntry (setCacheEntry cache k code1 (some files1) prompt1 t1).2 k = some e ∧
      e.code = code1 ∧ e.files = files1) ∧
    getCacheEntry
        (setCacheEntry (setCacheEntry cache k code1 (some files1) prompt1 t1).2 k
          code2 (some files2) prompt2 t2).2 k =
      some { timestamp := t2, code := code2, files := files2, prompt := prompt2,
             hash := generateCodeHash code2 } := by
  constructor
  · refine ⟨_, mapGet_mapSet_self .., rfl, rfl⟩
  · exact mapGet_mapSet_self ..

/-- Claim C3 counterexample: `clearCache(0)` falls into the falsy branch and
clears the whole cache, although an entry created at the current instant has
age `now - timestamp = 0`, which is not greater than `0` and so should be
kept by the claimed behaviour. -/
theorem clearCache_zero_clears_fresh_entry :
    clearCache [([107], entryAt 5)] (some 0) 5 = [] ∧
    ¬((5 : Int) - ((entryAt 5).timestamp : Int) > (0 : Int)) := by
  constructor
  · rfl
  · decide

/-- Claim C3 (amended): with no argument `clearCache` removes every entry,
and for every nonzero `maxAgeMs` it removes exactly the entries whose age
`now - timestamp` is strictly greater than `maxAgeMs` and keeps the others
unchanged.  (For `maxAgeMs = 0` the JS falsiness check clears the whole
cache instead, as the counterexample shows.) -/
theorem clearCache_spec (cache : Cache) (now : Nat) :
    clearCache cache none now = [] ∧
    ∀ m : Nat, m ≠ 0 → ∀ p, p ∈ clearCache cache (some m) now ↔
      p ∈ cache ∧ ¬((now : Int) - (p.2.timestamp : Int) > (m : Int)) := by
  refine ⟨rfl, ?_⟩
  intro m hm p
  match m, hm with
  | Nat.succ m', _ =>
    simp [clearCache, List.mem_filter]

theorem clearCache_spec_witness :
    ([107], entryAt 4) ∈ clearCache [([107], entryAt 4), ([108], entryAt 0)] (some 3) 5 ↔
    ([107], entryAt 4) ∈ [([107], entryAt 4), ([108], entryAt 0)] ∧
    ¬((5 : Int) - ((entryAt 4).timestamp : Int) > (3 : Int)) :=
  (clearCache_spec _ 5).2 3 (by decide) _

/-! ### The line differencer -/

theorem diffStep_eq (ol nl : List (List Nat)) (acc : List Change) (i : Nat) :
    diffStep ol nl acc i = acc ++ (specChangeAt ol nl i).toList := by
  simp only [diffStep, specChangeAt]
  split <;> simp

theorem foldl_toList_eq_filterMap {α β : Type} (f : α → Option β) :
    ∀ (l : List α) (acc : List β),
    l.foldl (fun a x => a ++ (f x).toList) acc = acc ++ l.filterMap f := by
  intro l
  induction l with
  | nil => intro acc; simp
  | cons x xs ih =>
    intro acc
    simp only [List.foldl_cons, List.filterMap_cons]
    cases hf : f x <;> simp [ih, hf]

theorem foldl_diffStep_eq_filterMap (ol nl : List (List Nat)) (k : Nat) :
    (List.range k).foldl (diffStep ol nl) [] =
      (List.range k).filterMap (specChangeAt ol nl) := by
  have hfun : diffStep ol nl = fun a i => a ++ (specChangeAt ol nl i).toList := by
    funext a i
    exact diffStep_eq ol nl a i
  rw [hfun, foldl_toList_eq_filterMap]
  simp

/-- Claim C7: for identical texts `generateDiff` short-circuits to no
differences and an empty change list; for distinct texts it reports
differences and its change list contains exactly one record per index,
over the padded range, where the two lines differ, with 1-based line
number and the add/remove/modify classification (`specChangeAt` is the
spec's prescription for one index). -/
theorem generateDiff_positional (o n : JSString) :
    (o = n → (generateDiff o n).hasDifferences = false ∧ (generateDiff o n).changes = []) ∧
    (o ≠ n → (generateDiff o n).hasDifferences = true ∧
      (generateDiff o n).changes =
        (List.range (max (jsSplitNl o).length (jsSplitNl n).length)).filterMap
          (specChangeAt (jsSplitNl o) (jsSplitNl n))) := by
  constructor
  · intro h
    simp [generateDiff, h]
  · intro h
    simp only [generateDiff, if_neg h]
    exact ⟨trivial, foldl_diffStep_eq_filterMap _ _ _⟩

theorem generateDiff_positional_witness :
    (generateDiff [97] [98]).hasDifferences = true ∧
    (generateDiff [97] [98]).changes =
      (List.range (max (jsSplitNl [97]).length (jsSplitNl [98]).length)).filterMap
        (specChangeAt (jsSplitNl [97]) (jsSplitNl [98])) :=
  (generateDiff_positional [97] [98]).2 (by decide)

/-- Claim C10: the texts `a\n` and `a` are distinct, yet the positional
comparison pads the shorter line list with empty strings and finds no
differing index, so `generateDiff` reports differences with an empty change
list and a changed-line count of zero. -/
theorem generateDiff_trailing_newline_anomaly :
    ([97, 10] : JSString) ≠ [97] ∧
    (generateDiff [97, 10] [97]).hasDifferences = true ∧
    (generateDiff [97, 10] [97]).changes = [] ∧
    (generateDiff [97, 10] [97]).changedLinesCount = some 0 := by
  decide

/-! ### Session history -/

theorem mapGet_mapSet_cases {K V : Type} [DecidableEq K] (m : List (K × V)) (k k' : K)
    (v w : V) (h : mapGet (mapSet m k v) k' = some w) :
    (k = k' ∧ w = v) ∨ (k ≠ k' ∧ mapGet m k' = some w) := by
  by_cases hk : k = k'
  · subst hk
    rw [mapGet_mapSet_self] at h
    exact Or.inl ⟨rfl, (Option.some.inj h).symm⟩
  · exact Or.inr ⟨hk, by rwa [mapGet_mapSet_ne _ _ _ _ hk] at h⟩

theorem sessionsInv_mapSet (s : Sessions) (sid : JSString) (h : SessionHistory)
    (hs : sessionsInv s) (hh : histInv h) : sessionsInv (mapSet s sid h) := by
  intro sid' h' hget
  rcases mapGet_mapSet_cases _ _ _ _ _ hget with ⟨_, rfl⟩ | ⟨_, hg⟩
  · exact hh
  · exact hs _ _ hg

theorem histInv_fresh : histInv { entries := [], currentIndex := -1 } := by
  constructor
  · simp
  · intro h
    simp at h

theorem sessionsInv_addToHistory (s : Sessions) (sid code : JSString)
    (files : List GenFile) (prompt : JSString) (now : Nat) (hs : sessionsInv s) :
    sessionsInv (addToHistory s sid code files prompt now) := by
  unfold addToHistory
  have hinv1 : sessionsInv (if mapHas s sid then s
      else mapSet s sid { entries := [], currentIndex := -1 }) := by
    split
    · exact hs
    · exact sessionsInv_mapSet _ _ _ hs histInv_fresh
  cases hget : mapGet (if mapHas s sid then s
      else mapSet s sid { entries := [], currentIndex := -1 }) sid with
  | none => simpa [hget] using hinv1
  | some history =>
    simp only [hget]
    apply sessionsInv_mapSet _ _ _ hinv1
    constructor
    · constructor
      · intro hemp
        simp at hemp
      · intro hidx
        exfalso
        simp only [List.length_append, List.length_singleton] at hidx
        omega
    · intro _
      simp only [List.length_append, List.length_singleton]
      constructor <;> push_cast <;> omega

theorem sessionsInv_undo (s : Sessions) (sid : JSString) (hs : sessionsInv s) :
    sessionsInv (undo s sid).2 := by
  unfold undo
  cases hget : mapGet s sid with
  | none => exact hs
  | some history =>
    simp only [hget]
    split
    · exact hs
    · next hci =>
      apply sessionsInv_mapSet _ _ _ hs
      obtain ⟨hiff, hbound⟩ := hs sid history hget
      have hne : history.entries ≠ [] := by
        intro hemp
        have := hiff.mp hemp
        omega
      obtain ⟨h0, hlen⟩ := hbound hne
      refine ⟨⟨fun hemp => absurd hemp hne, fun hidx => ?_⟩, fun _ => ?_⟩
      · exfalso
        simp only at hidx
        omega
      · simp only
        constructor <;> omega

theorem sessionsInv_redo (s : Sessions) (sid : JSString) (hs : sessionsInv s) :
    sessionsInv (redo s sid).2 := by
  unfold redo
  cases hget : mapGet s sid with
  | none => exact hs
  | some history =>
    simp only [hget]
    split
    · exact hs
    · next hci =>
      apply sessionsInv_mapSet _ _ _ hs
      obtain ⟨hiff, hbound⟩ := hs sid history hget
      have hne : history.entries ≠ [] := by
        intro hemp
        have h1 := hiff.mp hemp
        have h2 : history.entries.length = 0 := by rw [hemp]; rfl
        apply hci
        rw [h1, h2]
        norm_num
      obtain ⟨h0, hlen⟩ := hbound hne
      push_neg at hci
      refine ⟨⟨fun hemp => absurd hemp hne, fun hidx => ?_⟩, fun _ => ?_⟩
      · exfalso
        simp only at hidx
        omega
      · simp only
        constructor <;> omega

/-- Claim C4: every session reachable through `addToHistory`, `undo` and
`redo` from the empty history map satisfies the index invariant:
`currentIndex = -1` exactly when the entry list is empty, and
`0 <= currentIndex < length entries` otherwise. -/
theorem reachable_sessions_inv (s : Sessions) (h : ReachableSessions s) :
    sessionsInv s := by
  induction h with
  | empty =>
    intro sid h hget
    simp [mapGet] at hget
  | append s sid code files prompt now _ ih =>
    exact sessionsInv_addToHistory _ _ _ _ _ _ ih
  | undoStep s sid _ ih => exact sessionsInv_undo _ _ ih
  | redoStep s sid _ ih => exact sessionsInv_redo _ _ ih

theorem reachable_sessions_inv_witness :
    sessionsInv (addToHistory [] [115] [99] [] [112] 7) :=
  reachable_sessions_inv _
    (ReachableSessions.append [] [115] [99] [] [112] 7 ReachableSessions.empty)

/-- Claim C5: appending `v1` then `v2`, undoing, then appending `v3`
discards `v2`, so a subsequent `redo` returns absent. -/
theorem history_truncation_discards_redo (sid c1 c2 c3 : JSString)
    (f1 f2 f3 : List GenFile) (p1 p2 p3 : JSString) (t1 t2 t3 : Nat) :
    (redo (addToHistory (undo (addToHistory (addToHistory [] sid c1 f1 p1 t1)
      sid c2 f2 p2 t2) sid).2 sid c3 f3 p3 t3) sid).1 = none := by
  simp [addToHistory, undo, redo, mapGet, mapSet, mapHas, jsSliceTo]

/-- Claim C6: `undo` returns absent with no state change when the session is
missing or `currentIndex <= 0` (in particular on a single-entry session),
`redo` returns absent with no state change when the session is missing or
`currentIndex >= length - 1`; otherwise they decrement (resp. increment)
`currentIndex` and return the entry now pointed to (an existing entry
whenever the session satisfies the history invariant). -/
theorem undo_redo_boundary (s : Sessions) (sid : JSString) :
    (mapGet s sid = none → undo s sid = (none, s) ∧ redo s sid = (none, s)) ∧
    (∀ h, mapGet s sid = some h →
      (h.currentIndex ≤ 0 → undo s sid = (none, s)) ∧
      (0 < h.currentIndex →
        undo s sid = (h.entries[(h.currentIndex - 1).toNat]?,
          mapSet s sid { h with currentIndex := h.currentIndex - 1 }) ∧
        (histInv h → (h.entries[(h.currentIndex - 1).toNat]?).isSome)) ∧
      (h.currentIndex ≥ (h.entries.length : Int) - 1 → redo s sid = (none, s)) ∧
      (h.currentIndex < (h.entries.length : Int) - 1 →
        redo s sid = (h.entries[(h.currentIndex + 1).toNat]?,
          mapSet s sid { h with currentIndex := h.currentIndex + 1 }) ∧
        (histInv h → (h.entries[(h.currentIndex + 1).toNat]?).isSome))) := by
  constructor
  · intro hget
    constructor
    · unfold undo
      rw [hget]
    · unfold redo
      rw [hget]
  · intro h hget
    have hu : undo s sid = if h.currentIndex ≤ 0 then (none, s)
        else (h.entries[(h.currentIndex - 1).toNat]?,
          mapSet s sid { h with currentIndex := h.currentIndex - 1 }) := by
      unfold undo
      rw [hget]
    have hr : redo s sid = if h.currentIndex ≥ (h.entries.length : Int) - 1 then (none, s)
        else (h.entries[(h.currentIndex + 1).toNat]?,
          mapSet s sid { h with currentIndex := h.currentIndex + 1 }) := by
      unfold redo
      rw [hget]
    refine ⟨?_, ?_, ?_, ?_⟩
    · intro hci
      rw [hu, if_pos hci]
    · intro hci
      constructor
      · rw [hu, if_neg (by omega)]
      · intro hinv
        obtain ⟨hiff, hbound⟩ := hinv
        have hne : h.entries ≠ [] := by
          intro hemp
          have := hiff.mp hemp
          omega
        obtain ⟨h0, hlen⟩ := hbound hne
        rw [List.getElem?_eq_getElem (by omega)]
        rfl
    · intro hci
      rw [hr, if_pos hci]
    · intro hci
      constructor
      · rw [hr, if_neg (by omega)]
      · intro hinv
        obtain ⟨hiff, hbound⟩ := hinv
        have hne : h.entries ≠ [] := by
          intro hemp
          have h1 := hiff.mp hemp
          have h2 : h.entries.length = 0 := by rw [hemp]; rfl
          omega
        obtain ⟨h0, hlen⟩ := hbound hne
        rw [List.getElem?_eq_getElem (by omega)]
        rfl

theorem undo_redo_boundary_witness :
    undo sampleSessions [115] = (none, sampleSessions) :=
  (((undo_redo_boundary sampleSessions [115]).2
    { entries := [sampleHistEntry], currentIndex := 0 } (by decide)).1 (by decide))

/-! ### The file-set comparator -/

theorem mem_of_mapGet {K V : Type} [DecidableEq K] {m : List (K × V)} {k : K} {v : V}
    (h : mapGet m k = some v) : (k, v) ∈ m := by
  induction m with
  | nil => simp [mapGet] at h
  | cons p rest ih =>
    obtain ⟨p1, p2⟩ := p
    by_cases hp : p1 = k
    · subst hp
      simp [mapGet] at h
      subst h
      exact List.mem_cons_self _ _
    · simp [mapGet, hp] at h
      exact List.mem_cons_of_mem _ (ih h)

theorem mapGet_isSome_iff_mem_keys {K V : Type} [DecidableEq K] (m : List (K × V)) (k : K) :
    (mapGet m k).isSome ↔ k ∈ m.map Prod.fst := by
  induction m with
  | nil => simp [mapGet]
  | cons p rest ih =>
    by_cases hp : p.1 = k
    · simp [mapGet, hp]
    · simp only [mapGet, hp, if_false, List.map_cons, List.mem_cons, ih]
      constructor
      · exact Or.inr
      · rintro (h | h)
        · exact absurd h.symm hp
        · exact h

theorem mapGet_eq_some_of_mem {K V : Type} [DecidableEq K] {m : List (K × V)}
    (hnd : (m.map Prod.fst).Nodup) {k : K} {v : V} (hm : (k, v) ∈ m) :
    mapGet m k = some v := by
  induction m with
  | nil => simp at hm
  | cons p rest ih =>
    simp only [List.map_cons, List.nodup_cons] at hnd
    rcases List.mem_cons.mp hm with heq | hmem
    · rw [← heq]
      simp [mapGet]
    · have hk : p.1 ≠ k := by
        intro hpk
        apply hnd.1
        rw [hpk]
        exact List.mem_map.mpr ⟨(k, v), hmem, rfl⟩
      simp [mapGet, hk, ih hnd.2 hmem]

theorem mem_keys_mapSet {K V : Type} [DecidableEq K] (m : List (K × V)) (k a : K) (v : V) :
    a ∈ (mapSet m k v).map Prod.fst ↔ a = k ∨ a ∈ m.map Prod.fst := by
  induction m with
  | nil => simp [mapSet]
  | cons p rest ih =>
    by_cases hp : p.1 = k
    · simp only [mapSet, hp, if_true, List.map_cons, List.mem_cons]
      tauto
    · simp only [mapSet, hp, if_false, List.map_cons, List.mem_cons, ih]
      tauto

theorem nodup_keys_mapSet {K V : Type} [DecidableEq K] (m : List (K × V)) (k : K) (v : V)
    (h : (m.map Prod.fst).Nodup) : ((mapSet m k v).map Prod.fst).Nodup := by
  induction m with
  | nil => simp [mapSet]
  | cons p rest ih =>
    simp only [List.map_cons, List.nodup_cons] at h
    by_cases hp : p.1 = k
    · simp only [mapSet, hp, if_true, List.map_cons, List.nodup_cons]
      exact ⟨hp ▸ h.1, h.2⟩
    · simp only [mapSet, hp, if_false, List.map_cons, List.nodup_cons]
      refine ⟨?_, ih h.2⟩
      intro hmem
      rcases (mem_keys_mapSet _ _ _ _).mp hmem with hk | hk
      · exact hp hk
      · exact h.1 hk

theorem buildFileMap_aux_nodup : ∀ (fs : List GenFile) (m : List (JSString × GenFile)),
    (m.map Prod.fst).Nodup →
    (((fs.foldl (fun m f => mapSet m f.path f) m)).map Prod.fst).Nodup := by
  intro fs
  induction fs with
  | nil => intro m h; exact h
  | cons f fs ih =>
    intro m h
    exact ih _ (nodup_keys_mapSet _ _ _ h)

theorem buildFileMap_nodup (fs : List GenFile) :
    ((buildFileMap fs).map Prod.fst).Nodup :=
  buildFileMap_aux_nodup fs [] (by simp)

theorem buildFileMap_aux_keys : ∀ (fs : List GenFile) (m : List (JSString × GenFile))
    (p : JSString), p ∈ ((fs.foldl (fun m f => mapSet m f.path f) m)).map Prod.fst ↔
      p ∈ fs.map GenFile.path ∨ p ∈ m.map Prod.fst := by
  intro fs
  induction fs with
  | nil => intro m p; simp
  | cons f fs ih =>
    intro m p
    simp only [List.foldl_cons, ih, mem_keys_mapSet, List.map_cons, List.mem_cons]
    tauto

theorem mem_keys_buildFileMap (fs : List GenFile) (p : JSString) :
    p ∈ (buildFileMap fs).map Prod.fst ↔ p ∈ fs.map GenFile.path := by
  rw [buildFileMap, buildFileMap_aux_keys]
  simp

theorem compareNewStep_none (om : List (JSString × GenFile)) (acc : FileCategories)
    (pf : JSString × GenFile) (h : mapGet om pf.1 = none) :
    compareNewStep om acc pf = { acc with added := acc.added ++
      [{ path := pf.1, content := pf.2.content, language := pf.2.language }] } := by
  unfold compareNewStep
  rw [h]

theorem compareNewStep_some (om : List (JSString × GenFile)) (acc : FileCategories)
    (pf : JSString × GenFile) (fo : GenFile) (h : mapGet om pf.1 = some fo) :
    compareNewStep om acc pf =
      if fo.content ≠ pf.2.content then
        { acc with modified := acc.modified ++
            [{ path := pf.1, oldContent := fo.content, newContent := pf.2.content,
               diff := generateDiff fo.content pf.2.content }] }
      else { acc with unchanged := acc.unchanged ++ [pf.1] } := by
  unfold compareNewStep
  rw [h]

theorem foldl_compareNewStep (om : List (JSString × GenFile)) :
    ∀ (l : List (JSString × GenFile)) (acc : FileCategories),
    l.foldl (compareNewStep om) acc =
      { added := acc.added ++ l.filterMap (addedAt om),
        modified := acc.modified ++ l.filterMap (modifiedAt om),
        removed := acc.removed,
        unchanged := acc.unchanged ++ l.filterMap (unchangedAt om) } := by
  intro l
  induction l with
  | nil => intro acc; simp
  | cons x xs ih =>
    intro acc
    simp only [List.foldl_cons, ih, List.filterMap_cons]
    cases hx : mapGet om x.1 with
    | none =>
      rw [compareNewStep_none _ _ _ hx]
      simp [addedAt, modifiedAt, unchangedAt, hx]
    | some f =>
      rw [compareNewStep_some _ _ _ _ hx]
      by_cases hc : f.content ≠ x.2.content
      · rw [if_pos hc]
        simp [addedAt, modifiedAt, unchangedAt, hx, hc]
      · rw [if_neg hc]
        simp [addedAt, modifiedAt, unchangedAt, hx, hc]

theorem foldl_compareOldStep (nm : List (JSString × GenFile)) :
    ∀ (l : List (JSString × GenFile)) (acc : FileCategories),
    l.foldl (compareOldStep nm) acc =
      { added := acc.added, modified := acc.modified,
        removed := acc.removed ++ l.filterMap (removedAt nm),
        unchanged := acc.unchanged } := by
  intro l
  induction l with
  | nil => intro acc; simp
  | cons x xs ih =>
    intro acc
    simp only [List.foldl_cons, ih, List.filterMap_cons]
    unfold compareOldStep removedAt
    split_ifs <;> simp

theorem compareFiles_details (oldFiles newFiles : List GenFile) :
    (compareFiles oldFiles newFiles).details =
      { added := (buildFileMap newFiles).filterMap (addedAt (buildFileMap oldFiles)),
        modified := (buildFileMap newFiles).filterMap (modifiedAt (buildFileMap oldFiles)),
        removed := (buildFileMap oldFiles).filterMap (removedAt (buildFileMap newFiles)),
        unchanged := (buildFileMap newFiles).filterMap (unchangedAt (buildFileMap oldFiles)) } := by
  simp only [compareFiles, foldl_compareNewStep, foldl_compareOldStep]
  simp

theorem added_mem_iff (om nm : List (JSString × GenFile)) (p : JSString) :
    (∃ a ∈ nm.filterMap (addedAt om), a.path = p) ↔
      (mapGet nm p).isSome ∧ mapGet om p = none := by
  constructor
  · rintro ⟨a, ha, rfl⟩
    obtain ⟨pf, hpf, hg⟩ := List.mem_filterMap.mp ha
    unfold addedAt at hg
    cases hom : mapGet om pf.1 with
    | none =>
      simp only [hom] at hg
      obtain rfl := Option.some.inj hg
      refine ⟨?_, hom⟩
      rw [mapGet_isSome_iff_mem_keys]
      exact List.mem_map.mpr ⟨pf, hpf, rfl⟩
    | some f =>
      simp only [hom] at hg
      cases hg
  · rintro ⟨hsome, hnone⟩
    obtain ⟨fn, hfn⟩ := Option.isSome_iff_exists.mp hsome
    refine ⟨{ path := p, content := fn.content, language := fn.language }, ?_, rfl⟩
    apply List.mem_filterMap.mpr
    refine ⟨(p, fn), mem_of_mapGet hfn, ?_⟩
    simp [addedAt, hnone]

theorem modified_mem_iff (om nm : List (JSString × GenFile))
    (hnd : (nm.map Prod.fst).Nodup) (p : JSString) :
    (∃ mf ∈ nm.filterMap (modifiedAt om), mf.path = p) ↔
      ∃ fo fn, mapGet om p = some fo ∧ mapGet nm p = some fn ∧
        fo.content ≠ fn.content := by
  constructor
  · rintro ⟨mf, hmf, rfl⟩
    obtain ⟨pf, hpf, hg⟩ := List.mem_filterMap.mp hmf
    unfold modifiedAt at hg
    cases hom : mapGet om pf.1 with
    | none =>
      simp only [hom] at hg
      cases hg
    | some fo =>
      simp only [hom] at hg
      by_cases hc : fo.content ≠ pf.2.content
      · rw [if_pos hc] at hg
        obtain rfl := Option.some.inj hg
        refine ⟨fo, pf.2, hom, ?_, hc⟩
        have : (pf.1, pf.2) ∈ nm := by
          rw [Prod.mk.eta]
          exact hpf
        exact mapGet_eq_some_of_mem hnd this
      · rw [if_neg hc] at hg
        cases hg
  · rintro ⟨fo, fn, hfo, hfn, hc⟩
    refine ⟨{ path := p, oldContent := fo.content, newContent := fn.content,
              diff := generateDiff fo.content fn.content }, ?_, rfl⟩
    apply List.mem_filterMap.mpr
    refine ⟨(p, fn), mem_of_mapGet hfn, ?_⟩
    simp only [modifiedAt, hfo, if_pos hc]

theorem unchanged_mem_iff (om nm : List (JSString × GenFile))
    (hnd : (nm.map Prod.fst).Nodup) (p : JSString) :
    p ∈ nm.filterMap (unchangedAt om) ↔
      ∃ fo fn, mapGet om p = some fo ∧ mapGet nm p = some fn ∧
        fo.content = fn.content := by
  constructor
  · intro hp
    obtain ⟨pf, hpf, hg⟩ := List.mem_filterMap.mp hp
    unfold unchangedAt at hg
    cases hom : mapGet om pf.1 with
    | none =>
      simp only [hom] at hg
      cases hg
    | some fo =>
      simp only [hom] at hg
      by_cases hc : fo.content ≠ pf.2.content
      · rw [if_pos hc] at hg
        cases hg
      · rw [if_neg hc] at hg
        obtain rfl := Option.some.inj hg
        push_neg at hc
        refine ⟨fo, pf.2, hom, ?_, hc⟩
        have : (pf.1, pf.2) ∈ nm := by
          rw [Prod.mk.eta]
          exact hpf
        exact mapGet_eq_some_of_mem hnd this
  · rintro ⟨fo, fn, hfo, hfn, hc⟩
    apply List.mem_filterMap.mpr
    refine ⟨(p, fn), mem_of_mapGet hfn, ?_⟩
    simp only [unchangedAt, hfo]
    rw [if_neg (not_not_intro hc)]

theorem removed_mem_iff (om nm : List (JSString × GenFile)) (p : JSString) :
    (∃ r ∈ om.filterMap (removedAt nm), r.path = p) ↔
      (mapGet om p).isSome ∧ mapGet nm p = none := by
  constructor
  · rintro ⟨r, hr, rfl⟩
    obtain ⟨pf, hpf, hg⟩ := List.mem_filterMap.mp hr
    unfold removedAt at hg
    by_cases hh : mapHas nm pf.1
    · rw [if_pos hh] at hg
      cases hg
    · rw [if_neg hh] at hg
      obtain rfl := Option.some.inj hg
      constructor
      · rw [mapGet_isSome_iff_mem_keys]
        exact List.mem_map.mpr ⟨pf, hpf, rfl⟩
      · unfold mapHas at hh
        exact Option.not_isSome_iff_eq_none.mp hh
  · rintro ⟨hsome, hnone⟩
    obtain ⟨fo, hfo⟩ := Option.isSome_iff_exists.mp hsome
    refine ⟨{ path := p, content := fo.content }, ?_, rfl⟩
    apply List.mem_filterMap.mpr
    refine ⟨(p, fo), mem_of_mapGet hfo, ?_⟩
    unfold removedAt mapHas
    rw [hnone]
    rfl

/-- Claim C8: every path in the union of the two file sets lands in exactly
one of the four categories of `compareFiles`, with membership characterised
by presence in the two path-keyed maps and content equality. -/
theorem compareFiles_partition (oldFiles newFiles : List GenFile) (p : JSString) :
    ((∃ a ∈ (compareFiles oldFiles newFiles).details.added, a.path = p) ↔
      (mapGet (buildFileMap newFiles) p).isSome ∧
        mapGet (buildFileMap oldFiles) p = none) ∧
    ((∃ mf ∈ (compareFiles oldFiles newFiles).details.modified, mf.path = p) ↔
      ∃ fo fn, mapGet (buildFileMap oldFiles) p = some fo ∧
        mapGet (buildFileMap newFiles) p = some fn ∧ fo.content ≠ fn.content) ∧
    (p ∈ (compareFiles oldFiles newFiles).details.unchanged ↔
      ∃ fo fn, mapGet (buildFileMap oldFiles) p = some fo ∧
        mapGet (buildFileMap newFiles) p = some fn ∧ fo.content = fn.content) ∧
    ((∃ r ∈ (compareFiles oldFiles newFiles).details.removed, r.path = p) ↔
      (mapGet (buildFileMap oldFiles) p).isSome ∧
        mapGet (buildFileMap newFiles) p = none) ∧
    (p ∈ oldFiles.map GenFile.path ∨ p ∈ newFiles.map GenFile.path →
      ((∃ a ∈ (compareFiles oldFiles newFiles).details.added, a.path = p) ∧
         ¬(∃ mf ∈ (compareFiles oldFiles newFiles).details.modified, mf.path = p) ∧
         ¬(p ∈ (compareFiles oldFiles newFiles).details.unchanged) ∧
         ¬(∃ r ∈ (compareFiles oldFiles newFiles).details.removed, r.path = p)) ∨
      (¬(∃ a ∈ (compareFiles oldFiles newFiles).details.added, a.path = p) ∧
         (∃ mf ∈ (compareFiles oldFiles newFiles).details.modified, mf.path = p) ∧
         ¬(p ∈ (compareFiles oldFiles newFiles).details.unchanged) ∧
         ¬(∃ r ∈ (compareFiles oldFiles newFiles).details.removed, r.path = p)) ∨
      (¬(∃ a ∈ (compareFiles oldFiles newFiles).details.added, a.path = p) ∧
         ¬(∃ mf ∈ (compareFiles oldFiles newFiles).details.modified, mf.path = p) ∧
         (p ∈ (compareFiles oldFiles newFiles).details.unchanged) ∧
         ¬(∃ r ∈ (compareFiles oldFiles newFiles).details.removed, r.path = p)) ∨
      (¬(∃ a ∈ (compareFiles oldFiles newFiles).details.added, a.path = p) ∧
         ¬(∃ mf ∈ (compareFiles oldFiles newFiles).details.modified, mf.path = p) ∧
         ¬(p ∈ (compareFiles oldFiles newFiles).details.unchanged) ∧
         (∃ r ∈ (compareFiles oldFiles newFiles).details.removed, r.path = p))) := by
  have hnew := buildFileMap_nodup newFiles
  have hA : (∃ a ∈ (compareFiles oldFiles newFiles).details.added, a.path = p) ↔
      (mapGet (buildFileMap newFiles) p).isSome ∧
        mapGet (buildFileMap oldFiles) p = none := by
    rw [compareFiles_details]
    exact added_mem_iff _ _ p
  have hM : (∃ mf ∈ (compareFiles oldFiles newFiles).details.modified, mf.path = p) ↔
      ∃ fo fn, mapGet (buildFileMap oldFiles) p = some fo ∧
        mapGet (buildFileMap newFiles) p = some fn ∧ fo.content ≠ fn.content := by
    rw [compareFiles_details]
    exact modified_mem_iff _ _ hnew p
  have hU : p ∈ (compareFiles oldFiles newFiles).details.unchanged ↔
      ∃ fo fn, mapGet (buildFileMap oldFiles) p = some fo ∧
        mapGet (buildFileMap newFiles) p = some fn ∧ fo.content = fn.content := by
    rw [compareFiles_details]
    exact unchanged_mem_iff _ _ hnew p
  have hR : (∃ r ∈ (compareFiles oldFiles newFiles).details.removed, r.path = p) ↔
      (mapGet (buildFileMap oldFiles) p).isSome ∧
        mapGet (buildFileMap newFiles) p = none := by
    rw [compareFiles_details]
    exact removed_mem_iff _ _ p
  refine ⟨hA, hM, hU, hR, ?_⟩
  intro hu
  have hu' : (mapGet (buildFileMap oldFiles) p).isSome ∨
      (mapGet (buildFileMap newFiles) p).isSome := by
    rcases hu with h | h
    · exact Or.inl ((mapGet_isSome_iff_mem_keys _ _).mpr
        ((mem_keys_buildFileMap _ _).mpr h))
    · exact Or.inr ((mapGet_isSome_iff_mem_keys _ _).mpr
        ((mem_keys_buildFileMap _ _).mpr h))
  rw [hA, hM, hU, hR]
  cases ho : mapGet (buildFileMap oldFiles) p with
  | none =>
    cases hn : mapGet (buildFileMap newFiles) p with
    | none =>
      rw [ho, hn] at hu'
      simp at hu'
    | some fn =>
      left
      simp [hn, ho]
  | some fo =>
    cases hn : mapGet (buildFileMap newFiles) p with
    | none =>
      right; right; right
      simp [hn, ho]
    | some fn =>
      by_cases hc : fo.content = fn.content
      · right; right; left
        simp only [ho, hn, Option.isSome_some, Option.some.injEq]
        refine ⟨?_, ?_, ⟨fo, fn, rfl, rfl, hc⟩, ?_⟩
        · rintro ⟨-, h⟩
          cases h
        · rintro ⟨fo', fn', hfo', hfn', hc'⟩
          obtain rfl := hfo'
          obtain rfl := hfn'
          exact hc' hc
        · rintro ⟨-, h⟩
          cases h
      · right; left
        simp only [ho, hn, Option.isSome_some, Option.some.injEq]
        refine ⟨?_, ⟨fo, fn, rfl, rfl, hc⟩, ?_, ?_⟩
        · rintro ⟨-, h⟩
          cases h
        · rintro ⟨fo', fn', hfo', hfn', hc'⟩
          obtain rfl := hfo'
          obtain rfl := hfn'
          exact hc hc'
        · rintro ⟨-, h⟩
          cases h

theorem compareFiles_partition_witness :
    ((∃ a ∈ (compareFiles [sampleFile] []).details.added, a.path = [105]) ∧
      ¬(∃ mf ∈ (compareFiles [sampleFile] []).details.modified, mf.path = [105]) ∧
      ¬(([105] : JSString) ∈ (compareFiles [sampleFile] []).details.unchanged) ∧
      ¬(∃ r ∈ (compareFiles [sampleFile] []).details.removed, r.path = [105])) ∨
    (¬(∃ a ∈ (compareFiles [sampleFile] []).details.added, a.path = [105]) ∧
      (∃ mf ∈ (compareFiles [sampleFile] []).details.modified, mf.path = [105]) ∧
      ¬(([105] : JSString) ∈ (compareFiles [sampleFile] []).details.unchanged) ∧
      ¬(∃ r ∈ (compareFiles [sampleFile] []).details.removed, r.path = [105])) ∨
    (¬(∃ a ∈ (compareFiles [sampleFile] []).details.added, a.path = [105]) ∧
      ¬(∃ mf ∈ (compareFiles [sampleFile] []).details.modified, mf.path = [105]) ∧
      (([105] : JSString) ∈ (compareFiles [sampleFile] []).details.unchanged) ∧
      ¬(∃ r ∈ (compareFiles [sampleFile] []).details.removed, r.path = [105])) ∨
    (¬(∃ a ∈ (compareFiles [sampleFile] []).details.added, a.path = [105]) ∧
      ¬(∃ mf ∈ (compareFiles [sampleFile] []).details.modified, mf.path = [105]) ∧
      ¬(([105] : JSString) ∈ (compareFiles [sampleFile] []).details.unchanged) ∧
      (∃ r ∈ (compareFiles [sampleFile] []).details.removed, r.path = [105])) :=
  (compareFiles_partition [sampleFile] [] [105]).2.2.2.2 (Or.inl (by decide))

end Atlas
